import Mathlib

/-!
Verification of the keyguard bitcoin wallet core: a shallow embedding of the
Electrum-style transport (`ElectrumWS.js`), the chain query facade
(`ElectrumApi`), the address discovery loop and the transaction ledger / UTXO
reconciler (`wallet.js` / demo app), together with theorems settling the
frozen claims about it.

JavaScript values are modelled as follows: strings as `String` (or `List Char`
where character-level reasoning is needed), byte arrays (`Uint8Array`) as
`List (Fin 256)` or `List Nat`, numbers as `Nat`/`Int`, `async` failure
(a thrown exception caught by the caller) as `Option`/`Except`, and external
collaborators (BitcoinJS decoding, the remote node) as oracle function
parameters.
-/

namespace Keyguard

/-! ## Hex codec — `ElectrumWS.js` lines 19–33 (`hexToBytes` / `bytesToHex`) -/

/-- `const HEX_ALPHABET = '0123456789abcdef'`. -/
def HEX_ALPHABET : List Char := "0123456789abcdef".data

/-- `HEX_ALPHABET[n]`: the character used for one nibble. Indices above 15 do
not occur for `Uint8Array` contents (a byte shifted or masked is below 16). -/
def nibbleChar (n : Nat) : Char := HEX_ALPHABET.getD n '?'

/-- `bytesToHex`: for each byte appends `HEX_ALPHABET[code >>> 4]` and
`HEX_ALPHABET[code & 0x0F]`. For a byte `code < 256`, `code >>> 4` is
`code / 16` and `code & 0x0F` is `code % 16`. -/
def bytesToHex : List (Fin 256) → List Char
  | [] => []
  | code :: rest => nibbleChar (code.val / 16) :: nibbleChar (code.val % 16) :: bytesToHex rest

/-- The value `parseInt` assigns to one hex digit (`0-9`, `a-f`, also `A-F`). -/
def hexDigitValue (c : Char) : Option Nat :=
  if '0' ≤ c ∧ c ≤ '9' then some (c.toNat - 48)
  else if 'a' ≤ c ∧ c ≤ 'f' then some (c.toNat - 87)
  else if 'A' ≤ c ∧ c ≤ 'F' then some (c.toNat - 55)
  else none

/-- `parseInt(pair, 16)` on a two-character string, composed with the
`Uint8Array` coercion of `NaN` to `0`: `parseInt` reads the longest valid
prefix; no valid prefix gives `NaN`, which the typed array stores as `0`. -/
def parseHexPair (c1 c2 : Char) : Nat :=
  match hexDigitValue c1, hexDigitValue c2 with
  | some h, some l => 16 * h + l
  | some h, none => h
  | none, _ => 0

/-- `hex.match(/.{2}/g)`: the non-overlapping two-character runs of the
string, in order; a trailing odd character is not matched and is dropped. -/
def hexCharPairs : List Char → List (Char × Char)
  | c1 :: c2 :: rest => (c1, c2) :: hexCharPairs rest
  | _ => []

/-- `hexToBytes`: split into two-character runs, parse each as a base-16
number, store into a `Uint8Array` (which reduces the stored value mod 256). -/
def hexToBytes (hex : List Char) : List (Fin 256) :=
  (hexCharPairs hex).map (fun p => ⟨parseHexPair p.1 p.2 % 256, Nat.mod_lt _ (by omega)⟩)

theorem parseHexPair_nibble (h l : Fin 16) :
    parseHexPair (nibbleChar h.val) (nibbleChar l.val) = 16 * h.val + l.val := by
  revert h l; decide

theorem nibbleChar_mem_alphabet (n : Fin 16) :
    HEX_ALPHABET.contains (nibbleChar n.val) = true := by
  revert n; decide

/-- C10: the hex codec round-trips — for every byte array `b`,
`hexToBytes (bytesToHex b) = b`; and `bytesToHex b` always has length exactly
`2 · |b|` with every character drawn from the lowercase alphabet
`'0123456789abcdef'`, so hashes, scripts and transaction ids passed through
these helpers are preserved exactly. -/
theorem hex_codec_roundtrip (bytes : List (Fin 256)) :
    hexToBytes (bytesToHex bytes) = bytes
    ∧ (bytesToHex bytes).length = 2 * bytes.length
    ∧ (bytesToHex bytes).all (fun c => HEX_ALPHABET.contains c) = true := by
  induction bytes with
  | nil => exact ⟨rfl, rfl, rfl⟩
  | cons code rest ih =>
    obtain ⟨ih1, ih2, ih3⟩ := ih
    have hdiv : code.val / 16 < 16 := by omega
    have hmod : code.val % 16 < 16 := by omega
    have hv : parseHexPair (nibbleChar (code.val / 16)) (nibbleChar (code.val % 16))
        = code.val := by
      have h16 := parseHexPair_nibble ⟨code.val / 16, hdiv⟩ ⟨code.val % 16, hmod⟩
      simp only at h16
      omega
    refine ⟨?_, ?_, ?_⟩
    · show (⟨parseHexPair (nibbleChar (code.val / 16)) (nibbleChar (code.val % 16)) % 256,
        _⟩ : Fin 256) :: hexToBytes (bytesToHex rest) = code :: rest
      rw [ih1]
      refine congrArg (· :: rest) (Fin.ext ?_)
      show parseHexPair (nibbleChar (code.val / 16)) (nibbleChar (code.val % 16)) % 256
        = code.val
      rw [hv]
      exact Nat.mod_eq_of_lt code.isLt
    · show (nibbleChar (code.val / 16) :: nibbleChar (code.val % 16)
        :: bytesToHex rest).length = 2 * (code :: rest).length
      simp only [List.length_cons]
      omega
    · show (nibbleChar (code.val / 16) :: nibbleChar (code.val % 16)
        :: bytesToHex rest).all (fun c => HEX_ALPHABET.contains c) = true
      simp only [List.all_cons, Bool.and_eq_true]
      exact ⟨nibbleChar_mem_alphabet ⟨_, hdiv⟩, nibbleChar_mem_alphabet ⟨_, hmod⟩, ih3⟩

/-! ## Address recovery from an input — `ElectrumApi.deriveAddressFromInput`

`BitcoinJS.script.decompile` yields an array whose elements are opcodes
(numbers) or data pushes (Buffers); it is an external collaborator and enters
the model as an oracle parameter.  The BitcoinJS payment constructors
(`p2pkh`, `p2sh(p2wpkh)`, `p2wpkh`, `p2sh(p2ms)`, `p2sh(p2wsh(p2ms))`,
`p2wsh(p2ms)`) are likewise external: the spec treats address encoding as an
opaque pure function, so each constructor application is recorded as a tagged
value carrying the data the source feeds it (for the multisig shapes, the
signature count `m` together with the final chunk / witness item from which
the source decompiles the public keys). -/

/-- One element of a decompiled script: an opcode or a data push. -/
inductive ScriptElem
  | num (n : Nat)
  | buf (bytes : List Nat)
deriving DecidableEq

/-- A transaction input as consumed by `deriveAddressFromInput`: the raw
`scriptSig` bytes and the witness stack. -/
structure BtcInput where
  script : List Nat
  witness : List (List Nat)
deriving DecidableEq

/-- The result of `deriveAddressFromInput`: which payment construction the
source applies to which data; `unknown` is the `'-unkown-'` sentinel string
returned after logging the decode error. -/
inductive DerivedAddress
  | p2pkh (pubkey : ScriptElem)
  | p2shP2wpkh (pubkey : List Nat)
  | p2wpkh (pubkey : List Nat)
  | p2shP2ms (m : Nat) (redeemScript : ScriptElem)
  | p2shP2wshP2ms (m : Nat) (witnessScript : List Nat)
  | p2wshP2ms (m : Nat) (witnessScript : List Nat)
  | unknown
deriving DecidableEq

/-- `ElectrumApi.deriveAddressFromInput`, with its if-chain in source order:
decompile the script, then test (chunk count, witness count) shapes one after
the other, falling through to the sentinel. -/
def deriveAddressFromInput (decompile : List Nat → List ScriptElem)
    (input : BtcInput) : DerivedAddress :=
  let chunks := decompile input.script
  let witness := input.witness
  if chunks.length = 2 ∧ witness.length = 0 then
    .p2pkh (chunks.getD 1 (.num 0))
  else if chunks.length = 1 ∧ witness.length = 2 then
    .p2shP2wpkh (witness.getD 1 [])
  else if chunks.length = 0 ∧ witness.length = 2 then
    .p2wpkh (witness.getD 1 [])
  else if 2 < chunks.length ∧ witness.length = 0 then
    .p2shP2ms (chunks.length - 2) (chunks.getD (chunks.length - 1) (.num 0))
  else if chunks.length = 1 ∧ 2 < witness.length then
    .p2shP2wshP2ms (witness.length - 2) (witness.getD (witness.length - 1) [])
  else if chunks.length = 0 ∧ 2 < witness.length then
    .p2wshP2ms (witness.length - 2) (witness.getD (witness.length - 1) [])
  else .unknown

/-- The spec's decoding table, stated as six mutually exclusive cases keyed
solely by the pair (script-chunk count, witness-stack length), written here
with the multisig rows first to make the theorem below check that the rows
are order-independent (pairwise disjoint). -/
def addressFromInputTable (decompile : List Nat → List ScriptElem)
    (input : BtcInput) : DerivedAddress :=
  let chunks := decompile input.script
  let witness := input.witness
  if 2 < chunks.length ∧ witness.length = 0 then
    .p2shP2ms (chunks.length - 2) (chunks.getD (chunks.length - 1) (.num 0))
  else if chunks.length = 1 ∧ 2 < witness.length then
    .p2shP2wshP2ms (witness.length - 2) (witness.getD (witness.length - 1) [])
  else if chunks.length = 0 ∧ 2 < witness.length then
    .p2wshP2ms (witness.length - 2) (witness.getD (witness.length - 1) [])
  else if chunks.length = 2 ∧ witness.length = 0 then
    .p2pkh (chunks.getD 1 (.num 0))
  else if chunks.length = 1 ∧ witness.length = 2 then
    .p2shP2wpkh (witness.getD 1 [])
  else if chunks.length = 0 ∧ witness.length = 2 then
    .p2wpkh (witness.getD 1 [])
  else .unknown

/-- C1: `deriveAddressFromInput` classifies every input purely by the pair
(number of decompiled script chunks, number of witness-stack items), following
the table — (2,0) legacy P2PKH from chunk 1; (1,2) nested-segwit P2WPKH from
witness item 1; (0,2) native-segwit P2WPKH from witness item 1; (>2,0) legacy
multisig with `m = chunks − 2`; (1,>2) nested multisig with
`m = witness − 2`; (0,>2) native multisig with `m = witness − 2` — and every
other shape yields the `'-unkown-'` sentinel (the function is total: it
returns the sentinel rather than throwing). -/
theorem deriveAddressFromInput_classifies (decompile : List Nat → List ScriptElem)
    (input : BtcInput) :
    deriveAddressFromInput decompile input = addressFromInputTable decompile input := by
  simp only [deriveAddressFromInput, addressFromInputTable]
  split_ifs <;> first | rfl | omega

/-! ## Protocol transport — `ElectrumWS` (`ElectrumWS.js` lines 57–182)

The pieces of `ElectrumWS` state that message dispatch touches: the pending
request map (`this._requests`, a `Map` whose keys are the in-flight ids — the
continuation pair is represented by the id itself, with promise settlements
recorded in an append-only `settled` log) and the subscription map
(`this._subscriptions`, key to callback; callbacks are opaque and named by a
number).  `_onMessage` is a pure state transformer returning the new state
and the list of observable effects (promise settlements, callback
invocations) in execution order. -/

/-- A JSON value as far as the transport inspects one. -/
inductive JsonVal
  | null
  | str (s : String)
  | num (n : Int)
deriving DecidableEq

/-- A decoded message envelope; `Option` models presence of the field
(`'id' in response`, `'result' in response`, `'method' in response`). -/
structure RpcResponse where
  id : Option Nat
  result : Option JsonVal
  error : Option JsonVal
  method : Option String
  params : List JsonVal
deriving DecidableEq

/-- How a pending request's promise is settled. -/
inductive RpcOutcome
  | resolved (value : JsonVal)
  | rejected (message : String)
deriving DecidableEq

/-- Transport state: pending request ids, the log of promise settlements, and
the subscription routing table. -/
structure WsState where
  requests : List Nat
  settled : List (Nat × RpcOutcome)
  subscriptions : List (String × Nat)
deriving DecidableEq

/-- An observable effect of `_onMessage`. -/
inductive WsEvent
  | settle (id : Nat) (outcome : RpcOutcome)
  | invoke (callback : Nat) (params : List JsonVal)
deriving DecidableEq

def isSettleEvent : WsEvent → Bool
  | .settle _ _ => true
  | .invoke _ _ => false

def isInvokeEvent : WsEvent → Bool
  | .settle _ _ => false
  | .invoke _ _ => true

/-- JavaScript truthiness of the values the transport tests. -/
def jsTruthy : JsonVal → Bool
  | .null => false
  | .str s => !s.isEmpty
  | .num n => !(n == 0)

/-- `String(value)`, as used by the `Error` constructor for its message. -/
def jsValToString : JsonVal → String
  | .null => "null"
  | .str s => s
  | .num n => toString n

/-- `new Error(response.error || 'No result')`: the error field if present
and truthy, the fallback text otherwise. -/
def errorMessage (error : Option JsonVal) : String :=
  match error with
  | some v => if jsTruthy v then jsValToString v else "No result"
  | none => "No result"

/-- `if ("result" in response) callbacks.resolve(response.result); else
callbacks.reject(new Error(response.error || 'No result'))`. -/
def outcomeOf (resp : RpcResponse) : RpcOutcome :=
  match resp.result with
  | some v => .resolved v
  | none => .rejected (errorMessage resp.error)

/-- JavaScript `String.prototype.endsWith`. -/
def jsEndsWith (s pat : String) : Bool := pat.data.isSuffixOf s.data

/-- The subscription routing key:
`` `${method}${typeof params[0] === 'string' ? `-${params[0]}` : ''}` ``. -/
def subscriptionKey (method : String) (params : List JsonVal) : String :=
  method ++ (match params.headD .null with
    | .str s => "-" ++ s
    | _ => "")

/-- `this._subscriptions.get(key)` guarded by `has(key)`. -/
def lookupSubscription (subs : List (String × Nat)) (key : String) : Option Nat :=
  (subs.find? (fun p => p.1 == key)).map Prod.snd

/-- The request-correlation block of `_onMessage`:
`if ('id' in response && this._requests.has(response.id))` delete the id from
the pending map and resolve/reject the stored continuation pair. -/
def requestStep (st : WsState) (resp : RpcResponse) : WsState × List WsEvent :=
  match resp.id with
  | some i =>
    if st.requests.contains i then
      ({ st with
          requests := st.requests.erase i
          settled := st.settled ++ [(i, outcomeOf resp)] },
        [.settle i (outcomeOf resp)])
    else (st, [])
  | none => (st, [])

/-- The subscription block of `_onMessage`:
`if ('method' in response && response.method.endsWith('subscribe'))` recompute
the routing key and invoke the registered callback, if any. -/
def subscriptionEvents (subs : List (String × Nat)) (resp : RpcResponse) : List WsEvent :=
  match resp.method with
  | some m =>
    if jsEndsWith m "subscribe" then
      match lookupSubscription subs (subscriptionKey m resp.params) with
      | some cb => [.invoke cb resp.params]
      | none => []
    else []
  | none => []

/-- `ElectrumWS._onMessage` (lines 146–167): the request-correlation block
runs first, then — independently — the subscription block. -/
def onMessage (st : WsState) (resp : RpcResponse) : WsState × List WsEvent :=
  let step1 := requestStep st resp
  (step1.1, step1.2 ++ subscriptionEvents step1.1.subscriptions resp)

theorem subscriptionEvents_no_settle (subs : List (String × Nat)) (resp : RpcResponse) :
    (subscriptionEvents subs resp).all (fun e => !isSettleEvent e) = true := by
  unfold subscriptionEvents
  rcases resp.method with _ | m
  · rfl
  · by_cases hsub : jsEndsWith m "subscribe" = true
    · simp only [hsub, if_true]
      rcases lookupSubscription subs (subscriptionKey m resp.params) with _ | cb
      · rfl
      · rfl
    · simp only [hsub, Bool.false_eq_true, if_false, List.all_nil]

theorem requestStep_not_pending (st : WsState) (resp : RpcResponse)
    (h : ∀ i, resp.id = some i → st.requests.contains i = false) :
    requestStep st resp = (st, []) := by
  unfold requestStep
  rcases hid : resp.id with _ | i
  · rfl
  · simp only [h i hid, Bool.false_eq_true, if_false]

/-- C5: the first response carrying a pending id settles the request's promise
and removes the id from the pending map in the same step; a second response
carrying the same id leaves the state (pending map and settlement log)
unchanged and settles no promise — it is a no-op for request correlation. -/
theorem onMessage_second_response_noop (st : WsState) (resp : RpcResponse) (i : Nat)
    (hid : resp.id = some i) (hmem : i ∈ st.requests) (hnodup : st.requests.Nodup) :
    i ∉ (onMessage st resp).1.requests
    ∧ (onMessage st resp).1.settled = st.settled ++ [(i, outcomeOf resp)]
    ∧ (onMessage st resp).2.head? = some (.settle i (outcomeOf resp))
    ∧ (onMessage (onMessage st resp).1 resp).1 = (onMessage st resp).1
    ∧ ((onMessage (onMessage st resp).1 resp).2.all (fun e => !isSettleEvent e)) = true := by
  have hcont : st.requests.contains i = true := by
    simpa using hmem
  have hreq : requestStep st resp =
      ({ st with
          requests := st.requests.erase i
          settled := st.settled ++ [(i, outcomeOf resp)] },
        [.settle i (outcomeOf resp)]) := by
    unfold requestStep
    simp only [hid, hcont, if_true]
  have hst1 : (onMessage st resp).1 =
      { st with
          requests := st.requests.erase i
          settled := st.settled ++ [(i, outcomeOf resp)] } := by
    simp only [onMessage, hreq]
  have hnot : i ∉ st.requests.erase i := hnodup.not_mem_erase
  have hcont2 :
      (({ st with
            requests := st.requests.erase i
            settled := st.settled ++ [(i, outcomeOf resp)] } : WsState)).requests.contains i
        = false := by
    simpa using hnot
  have hreq2 : requestStep
      ({ st with
          requests := st.requests.erase i
          settled := st.settled ++ [(i, outcomeOf resp)] }) resp
      = ({ st with
            requests := st.requests.erase i
            settled := st.settled ++ [(i, outcomeOf resp)] }, []) := by
    refine requestStep_not_pending _ _ (fun j hj => ?_)
    rw [hid] at hj
    cases hj
    exact hcont2
  refine ⟨?_, ?_, ?_, ?_, ?_⟩
  · rw [hst1]; exact hnot
  · rw [hst1]
  · simp only [onMessage, hreq, List.cons_append, List.head?]
  · simp only [onMessage, hreq, hreq2]
  · simp only [onMessage, hreq, hreq2, List.nil_append]
    exact subscriptionEvents_no_settle _ _

/-- Witness for C5 at a concrete state and response. -/
theorem onMessage_second_response_noop_witness :
    7 ∉ (onMessage ⟨[7], [], []⟩ ⟨some 7, some (.str "ok"), none, none, []⟩).1.requests
    ∧ (onMessage (onMessage ⟨[7], [], []⟩ ⟨some 7, some (.str "ok"), none, none, []⟩).1
          ⟨some 7, some (.str "ok"), none, none, []⟩).1
        = (onMessage ⟨[7], [], []⟩ ⟨some 7, some (.str "ok"), none, none, []⟩).1 := by
  have h := onMessage_second_response_noop ⟨[7], [], []⟩
    ⟨some 7, some (.str "ok"), none, none, []⟩ 7 rfl (by decide) (by decide)
  exact ⟨h.1, h.2.2.2.1⟩

def isRejectedOutcome : RpcOutcome → Bool
  | .resolved _ => false
  | .rejected _ => true

/-- C6 counterexample: the claim says a response correlated to a pending
request is rejected if and only if it carries an `error` field or omits
`result`.  The source tests only `"result" in response`: a response carrying
both fields (`error` present, `result` present) is resolved, not rejected —
the right-hand side of the claimed equivalence holds while the left-hand side
fails. -/
theorem onMessage_reject_iff_counterexample :
    (RpcResponse.mk (some 7) (some (.str "value")) (some (.str "boom")) none []).error
        = some (.str "boom")
    ∧ (onMessage ⟨[7], [], []⟩
          ⟨some 7, some (.str "value"), some (.str "boom"), none, []⟩).2
        = [.settle 7 (.resolved (.str "value"))]
    ∧ isRejectedOutcome
        (outcomeOf ⟨some 7, some (.str "value"), some (.str "boom"), none, []⟩) = false := by
  refine ⟨rfl, ?_, rfl⟩
  decide

/-- C6 (amended): for every response correlated to a pending request, the
promise is rejected if and only if the response omits the `result` field —
the `error` field does not influence whether the promise rejects, only the
rejection message (`response.error || 'No result'`); when `result` is
present the promise is resolved with its value. -/
theorem onMessage_reject_iff_no_result (st : WsState) (resp : RpcResponse) (i : Nat)
    (hid : resp.id = some i) (hmem : i ∈ st.requests) :
    (isRejectedOutcome (outcomeOf resp) = true ↔ resp.result = none)
    ∧ (∀ v, resp.result = some v →
        (onMessage st resp).2.head? = some (.settle i (.resolved v)))
    ∧ (resp.result = none →
        (onMessage st resp).2.head?
          = some (.settle i (.rejected (errorMessage resp.error)))) := by
  have hcont : st.requests.contains i = true := by simpa using hmem
  have hreq : requestStep st resp =
      ({ st with
          requests := st.requests.erase i
          settled := st.settled ++ [(i, outcomeOf resp)] },
        [.settle i (outcomeOf resp)]) := by
    unfold requestStep
    simp only [hid, hcont, if_true]
  refine ⟨?_, ?_, ?_⟩
  · unfold outcomeOf
    rcases hres : resp.result with _ | v
    · simp only [isRejectedOutcome, true_iff]
    · simp only [isRejectedOutcome, Bool.false_eq_true, false_iff]
      intro hcontra
      exact (Option.some_ne_none v) (hres ▸ hcontra)
  · intro v hres
    simp only [onMessage, hreq, List.cons_append, List.head?, outcomeOf, hres]
  · intro hres
    simp only [onMessage, hreq, List.cons_append, List.head?, outcomeOf, hres]

/-- Witness for the amended C6 at concrete inputs: a response with `result`
resolves; one without `result` rejects with the error text. -/
theorem onMessage_reject_iff_no_result_witness :
    (onMessage ⟨[3], [], []⟩ ⟨some 3, some (.num 11), none, none, []⟩).2.head?
        = some (.settle 3 (.resolved (.num 11)))
    ∧ (onMessage ⟨[4], [], []⟩ ⟨some 4, none, some (.str "boom"), none, []⟩).2.head?
        = some (.settle 4 (.rejected "boom")) := by
  have h1 := onMessage_reject_iff_no_result ⟨[3], [], []⟩
    ⟨some 3, some (.num 11), none, none, []⟩ 3 rfl (by decide)
  have h2 := onMessage_reject_iff_no_result ⟨[4], [], []⟩
    ⟨some 4, none, some (.str "boom"), none, []⟩ 4 rfl (by decide)
  refine ⟨h1.2.1 (.num 11) rfl, ?_⟩
  have := h2.2.2 rfl
  simpa using this

/-- C8 counterexample: the claim says a single message takes at most one of
the two dispatch paths, never both.  The source checks the two conditions
independently: a message carrying both a pending `id` and a registered
`method` ending in `subscribe` settles the request and invokes the
subscription callback. -/
theorem onMessage_both_paths_counterexample :
    (onMessage ⟨[5], [], [("blockchain.headers.subscribe", 0)]⟩
        ⟨some 5, some (.str "r"), none, some "blockchain.headers.subscribe", []⟩).2
      = [.settle 5 (.resolved (.str "r")), .invoke 0 []] := by
  decide

theorem requestStep_subscriptions (st : WsState) (resp : RpcResponse) :
    (requestStep st resp).1.subscriptions = st.subscriptions := by
  unfold requestStep
  rcases resp.id with _ | i
  · rfl
  · dsimp only
    split <;> rfl

theorem requestStep_any_settle (st : WsState) (resp : RpcResponse) :
    (requestStep st resp).2.any isSettleEvent = true
      ↔ ∃ i, resp.id = some i ∧ i ∈ st.requests := by
  unfold requestStep
  rcases hid : resp.id with _ | i
  · simp
  · dsimp only
    by_cases hc : st.requests.contains i = true
    · simp only [hc, if_true, List.any_cons, isSettleEvent, List.any_nil, Bool.true_or,
        true_iff]
      exact ⟨i, rfl, by simpa using hc⟩
    · simp only [hc, Bool.false_eq_true, if_false, List.any_nil, false_iff]
      rintro ⟨j, hj, hmem⟩
      cases hj
      exact hc (by simpa using hmem)

theorem requestStep_any_invoke (st : WsState) (resp : RpcResponse) :
    (requestStep st resp).2.any isInvokeEvent = false := by
  unfold requestStep
  rcases resp.id with _ | i
  · rfl
  · dsimp only
    split <;> rfl

theorem subscriptionEvents_any_settle (subs : List (String × Nat)) (resp : RpcResponse) :
    (subscriptionEvents subs resp).any isSettleEvent = false := by
  unfold subscriptionEvents
  rcases resp.method with _ | m
  · rfl
  · dsimp only
    split
    · rcases lookupSubscription subs (subscriptionKey m resp.params) with _ | cb
      · rfl
      · rfl
    · rfl

theorem subscriptionEvents_any_invoke (subs : List (String × Nat)) (resp : RpcResponse) :
    (subscriptionEvents subs resp).any isInvokeEvent = true
      ↔ ∃ m, resp.method = some m ∧ jsEndsWith m "subscribe" = true
          ∧ (lookupSubscription subs (subscriptionKey m resp.params)).isSome = true := by
  unfold subscriptionEvents
  rcases hm : resp.method with _ | m
  · simp
  · dsimp only
    by_cases hend : jsEndsWith m "subscribe" = true
    · rw [if_pos hend]
      rcases hl : lookupSubscription subs (subscriptionKey m resp.params) with _ | cb
      · simp only [List.any_nil, Bool.false_eq_true, false_iff]
        rintro ⟨m', hm', _, hsome⟩
        cases hm'
        rw [hl] at hsome
        exact absurd hsome (by simp)
      · simp only [List.any_cons, isInvokeEvent, List.any_nil, Bool.true_or, true_iff]
        exact ⟨m, rfl, hend, by rw [hl]; rfl⟩
    · rw [if_neg hend]
      simp only [List.any_nil, Bool.false_eq_true, false_iff]
      rintro ⟨m', hm', hend', _⟩
      cases hm'
      exact hend hend'

/-- C8 (amended): the two dispatch paths of `_onMessage` are checked
independently — a settle event is emitted exactly when the message carries an
`id` matching a pending request, and a callback invocation exactly when it
carries a `method` ending in `subscribe` whose routing key is registered; a
message with only one of the two features takes at most one path, but a
message carrying both takes both paths. -/
theorem onMessage_path_characterization (st : WsState) (resp : RpcResponse) :
    ((onMessage st resp).2.any isSettleEvent = true
        ↔ ∃ i, resp.id = some i ∧ i ∈ st.requests)
    ∧ ((onMessage st resp).2.any isInvokeEvent = true
        ↔ ∃ m, resp.method = some m ∧ jsEndsWith m "subscribe" = true
            ∧ (lookupSubscription st.subscriptions (subscriptionKey m resp.params)).isSome
              = true) := by
  constructor
  · simp only [onMessage, List.any_append, subscriptionEvents_any_settle, Bool.or_false]
    exact requestStep_any_settle st resp
  · simp only [onMessage, List.any_append, requestStep_any_invoke, Bool.false_or,
      requestStep_subscriptions]
    exact subscriptionEvents_any_invoke st.subscriptions resp

/-! ## Chain query facade — `ElectrumApi` (`KeyguardRequest.d.ts` part)

`transactionToPlain` (BitcoinJS decoding of a raw transaction) is an external
collaborator; only the fields `getHistory` / `broadcastTransaction` touch are
modelled: the transaction id and the confirmation metadata (which
`transactionToPlain` initialises to `null` and `getHistory` attaches from a
prefetched block header).  Decoding and the remote node are oracle function
parameters. -/

/-- The slice of a plain transaction record the claims inspect: its id and
the confirmation metadata (`block_height` / `block_time` / `block_hash`,
`null` until a block header is attached).  The remaining fields of
`transactionToPlain` (inputs, outputs, version, vsize, …) do not influence
any claim and are omitted. -/
structure PlainTx where
  txid : String
  block_height : Option Int
  block_time : Option Nat
  block_hash : Option String
deriving DecidableEq

/-- `transactionToPlain(raw)` without a header argument: a record with the
decoded id and `null` confirmation metadata. -/
def mkPlainTx (txid : String) : PlainTx :=
  { txid := txid, block_height := none, block_time := none, block_hash := none }

/-- `ElectrumApi.broadcastTransaction` (lines 287–292): decode the raw
transaction locally (`decodeTxid` is the external
`transactionToPlain`/BitcoinJS id computation), submit the raw hex to the
node (`node` is the `blockchain.transaction.broadcast` round trip), and
compare the returned identifier with the locally computed id:
`if (hash === tx.txid) return tx; else throw new Error(hash)` — the
protocol-v1.0 quirk where an error comes back as a bare string. -/
def broadcastTransaction (decodeTxid : String → String) (node : String → String)
    (rawTx : String) : Except String PlainTx :=
  let tx := mkPlainTx (decodeTxid rawTx)
  let hash := node rawTx
  if hash = tx.txid then .ok tx else .error hash

/-- C7: `broadcastTransaction` first decodes the raw transaction locally to
compute its expected id `T1`, then submits the raw bytes; if the
node-returned identifier `T2` differs from `T1` it fails with the
broadcast-mismatch error carrying `T2` as its detail, and if `T2 = T1` it
returns the locally decoded transaction record. -/
theorem broadcastTransaction_mismatch (decodeTxid : String → String)
    (node : String → String) (rawTx : String) :
    (node rawTx ≠ decodeTxid rawTx →
      broadcastTransaction decodeTxid node rawTx = .error (node rawTx))
    ∧ (node rawTx = decodeTxid rawTx →
      broadcastTransaction decodeTxid node rawTx = .ok (mkPlainTx (decodeTxid rawTx))) := by
  constructor
  · intro hne
    simp only [broadcastTransaction, mkPlainTx]
    rw [if_neg hne]
  · intro heq
    simp only [broadcastTransaction, mkPlainTx]
    rw [if_pos heq]

/-- Witness for C7: a node echoing the decoded id makes the broadcast
succeed; a node returning a different string makes it fail with that string
as detail. -/
theorem broadcastTransaction_mismatch_witness :
    broadcastTransaction (fun _ => "T1") (fun _ => "T2") "raw" = .error "T2"
    ∧ broadcastTransaction (fun _ => "T1") (fun _ => "T1") "raw" = .ok (mkPlainTx "T1") := by
  constructor
  · exact (broadcastTransaction_mismatch (fun _ => "T1") (fun _ => "T2") "raw").1
      (by decide)
  · exact (broadcastTransaction_mismatch (fun _ => "T1") (fun _ => "T1") "raw").2 rfl

/-! ## History fetching — `ElectrumApi.getHistory` (lines 167–216)

`getHistory` sorts the receipt list by descending height (height `0`, the
unconfirmed marker and the only falsy height, is treated as
`Number.MAX_SAFE_INTEGER`), prefetches the block header of every positive
height, then fetches every transaction in order.  A failed
`getBlockHeader` call ends the header-prefetch loop (`catch { break }`); a
failed `getTransaction` call ends the whole function (`catch { return txs }`)
with the records gathered so far.  Both network calls are oracles that
either yield a value or fail. -/

/-- The header fields `getHistory` attaches; `getBlockHeader` returns more
(bits, nonce, version, merkle root, weight), none of which the claims
inspect. -/
structure PlainHeader where
  blockHash : String
  timestamp : Nat
deriving DecidableEq

/-- One entry of `blockchain.scripthash.get_history`. -/
structure HistEntry where
  tx_hash : String
  height : Int
deriving DecidableEq

/-- `(entry.height || Number.MAX_SAFE_INTEGER)`: `0` is the only falsy
height. -/
def histSortKey (e : HistEntry) : Int :=
  if e.height = 0 then 9007199254740991 else e.height

/-- `history.sort((a, b) => (b.height || MAX) - (a.height || MAX))`: a stable
sort by descending key.  JavaScript's `Array.prototype.sort` is stable, and
a stable sort for a total preorder is unique, so insertion sort with the
matching relation reproduces it. -/
def sortHistory (history : List HistEntry) : List HistEntry :=
  history.insertionSort (fun a b => histSortKey b ≤ histSortKey a)

/-- The header-prefetch loop: for each height in order, `try` fetching the
header into the map, `catch { console.error(error); break; }`. -/
def buildBlockHeaders (fetchHeader : Int → Option PlainHeader) :
    List Int → List (Int × PlainHeader)
  | [] => []
  | h :: rest =>
    match fetchHeader h with
    | some header => (h, header) :: buildBlockHeaders fetchHeader rest
    | none => []

/-- `blockHeaders.get(height)` (first binding wins, as for `Map.set` with
a deterministic fetch). -/
def lookupHeader (headers : List (Int × PlainHeader)) (h : Int) : Option PlainHeader :=
  (headers.find? (fun p => p.1 == h)).map Prod.snd

/-- The transaction-fetch loop: for each `{tx_hash, height}` in order, `try`
`getTransaction(tx_hash)` (a fresh record with `null` metadata), attach the
prefetched header for `height` when the map holds one, and push; `catch`
returns the records gathered so far — modelled by cutting the list at the
first failing entry. -/
def fetchHistoryTxs (fetchTx : String → Option String)
    (headers : List (Int × PlainHeader)) : List HistEntry → List PlainTx
  | [] => []
  | e :: rest =>
    match fetchTx e.tx_hash with
    | none => []
    | some txid =>
      (match lookupHeader headers e.height with
        | some header =>
          { mkPlainTx txid with
              block_height := some e.height
              block_time := some header.timestamp
              block_hash := some header.blockHash }
        | none => mkPlainTx txid) :: fetchHistoryTxs fetchTx headers rest

/-- The heights for which headers are prefetched:
`if (typeof height === 'number' && height > 0) array.push(height)`. -/
def positiveHeights (entries : List HistEntry) : List Int :=
  (entries.map HistEntry.height).filter (fun h => 0 < h)

/-- `ElectrumApi.getHistory`, composed from the sorted receipts, the header
prefetch and the transaction fetch loop. -/
def getHistory (fetchHeader : Int → Option PlainHeader)
    (fetchTx : String → Option String) (history : List HistEntry) : List PlainTx :=
  let sorted := sortHistory history
  let headers := buildBlockHeaders fetchHeader (positiveHeights sorted)
  fetchHistoryTxs fetchTx headers sorted

theorem fetchHistoryTxs_all_ok_length (fetchTx : String → Option String)
    (headers : List (Int × PlainHeader)) (entries : List HistEntry)
    (h : entries.all (fun e => (fetchTx e.tx_hash).isSome) = true) :
    (fetchHistoryTxs fetchTx headers entries).length = entries.length := by
  induction entries with
  | nil => rfl
  | cons e rest ih =>
    simp only [List.all_cons, Bool.and_eq_true] at h
    obtain ⟨he, hrest⟩ := h
    rcases htx : fetchTx e.tx_hash with _ | txid
    · rw [htx] at he; exact absurd he (by simp)
    · simp only [fetchHistoryTxs, htx, List.length_cons, ih hrest]

theorem fetchHistoryTxs_stops_at_failure (fetchTx : String → Option String)
    (headers : List (Int × PlainHeader)) (pre : List HistEntry) (e : HistEntry)
    (post : List HistEntry)
    (hpre : pre.all (fun e' => (fetchTx e'.tx_hash).isSome) = true)
    (hfail : fetchTx e.tx_hash = none) :
    fetchHistoryTxs fetchTx headers (pre ++ e :: post)
      = fetchHistoryTxs fetchTx headers pre := by
  induction pre with
  | nil =>
    simp only [List.nil_append, fetchHistoryTxs, hfail]
  | cons p rest ih =>
    simp only [List.all_cons, Bool.and_eq_true] at hpre
    obtain ⟨hp, hrest⟩ := hpre
    rcases htx : fetchTx p.tx_hash with _ | txid
    · rw [htx] at hp; exact absurd hp (by simp)
    · simp only [List.cons_append, fetchHistoryTxs, htx]
      exact congrArg _ (ih hrest)

theorem fetchHistoryTxs_get_no_header (fetchTx : String → Option String)
    (headers : List (Int × PlainHeader)) :
    ∀ (entries : List HistEntry) (k : Nat) (e : HistEntry) (txid : String),
    entries.get? k = some e →
    ((entries.take k).all (fun e' => (fetchTx e'.tx_hash).isSome)) = true →
    fetchTx e.tx_hash = some txid →
    lookupHeader headers e.height = none →
    (fetchHistoryTxs fetchTx headers entries).get? k = some (mkPlainTx txid) := by
  intro entries
  induction entries with
  | nil => intro k e txid hk; simp at hk
  | cons p rest ih =>
    intro k e txid hk htake htx hhd
    cases k with
    | zero =>
      simp only [List.get?] at hk
      cases hk
      simp only [fetchHistoryTxs, htx, hhd, List.get?]
    | succ k =>
      simp only [List.get?] at hk
      simp only [List.take, List.all_cons, Bool.and_eq_true] at htake
      obtain ⟨hp, htake⟩ := htake
      rcases hptx : fetchTx p.tx_hash with _ | ptxid
      · rw [hptx] at hp; exact absurd hp (by simp)
      · simp only [fetchHistoryTxs, hptx, List.get?]
        exact ih k e txid hk htake htx hhd

/-- C4: in `getHistory`, a block-header fetch failure stops header
prefetching for the remainder of the batch but the history fetch continues —
if every per-transaction fetch succeeds, one record is returned per history
entry regardless of header failures, and an entry whose height has no
prefetched header yields a record with `null` confirmation metadata — whereas
a per-transaction fetch failure ends the whole history fetch immediately:
`getHistory` returns exactly the records gathered before the failing entry. -/
theorem getHistory_failure_asymmetry (fetchHeader : Int → Option PlainHeader)
    (fetchTx : String → Option String) (history : List HistEntry) :
    (∀ pre e post, sortHistory history = pre ++ e :: post →
      pre.all (fun e' => (fetchTx e'.tx_hash).isSome) = true →
      fetchTx e.tx_hash = none →
      getHistory fetchHeader fetchTx history
        = fetchHistoryTxs fetchTx
            (buildBlockHeaders fetchHeader (positiveHeights (sortHistory history))) pre)
    ∧ ((sortHistory history).all (fun e => (fetchTx e.tx_hash).isSome) = true →
      (getHistory fetchHeader fetchTx history).length = history.length)
    ∧ (∀ k e txid, (sortHistory history).get? k = some e →
      ((sortHistory history).take k).all (fun e' => (fetchTx e'.tx_hash).isSome) = true →
      fetchTx e.tx_hash = some txid →
      lookupHeader (buildBlockHeaders fetchHeader (positiveHeights (sortHistory history)))
          e.height = none →
      (getHistory fetchHeader fetchTx history).get? k = some (mkPlainTx txid)) := by
  refine ⟨?_, ?_, ?_⟩
  · intro pre e post hsplit hpre hfail
    simp only [getHistory]
    generalize buildBlockHeaders fetchHeader (positiveHeights (sortHistory history)) = hd
    rw [hsplit]
    exact fetchHistoryTxs_stops_at_failure fetchTx hd pre e post hpre hfail
  · intro hall
    simp only [getHistory]
    rw [fetchHistoryTxs_all_ok_length fetchTx _ _ hall]
    exact List.length_insertionSort _ _
  · intro k e txid hk htake htx hhd
    simp only [getHistory]
    exact fetchHistoryTxs_get_no_header fetchTx _ _ k e txid hk htake htx hhd

/-- Witness for C4 on a concrete history: receipts at heights 2 and 1
(sorted descending), the header fetch failing everywhere, and the
transaction fetch failing on the second entry — the first record is still
returned, without confirmation metadata. -/
theorem getHistory_failure_asymmetry_witness :
    getHistory (fun _ => none) (fun h => if h = "b" then some "B" else none)
        [⟨"a", 1⟩, ⟨"b", 2⟩]
      = fetchHistoryTxs (fun h => if h = "b" then some "B" else none)
          (buildBlockHeaders (fun _ => none)
            (positiveHeights (sortHistory [⟨"a", 1⟩, ⟨"b", 2⟩]))) [⟨"b", 2⟩]
    ∧ (getHistory (fun _ => none) (fun _ => some "X") [⟨"a", 1⟩, ⟨"b", 2⟩]).length = 2
    ∧ (getHistory (fun _ => none) (fun _ => some "X") [⟨"a", 1⟩, ⟨"b", 2⟩]).get? 0
        = some (mkPlainTx "X") := by
  refine ⟨?_, ?_, ?_⟩
  · exact (getHistory_failure_asymmetry (fun _ => none)
      (fun h => if h = "b" then some "B" else none) [⟨"a", 1⟩, ⟨"b", 2⟩]).1
      [⟨"b", 2⟩] ⟨"a", 1⟩ [] (by decide) (by decide) (by decide)
  · exact (getHistory_failure_asymmetry (fun _ => none) (fun _ => some "X")
      [⟨"a", 1⟩, ⟨"b", 2⟩]).2.1 (by decide)
  · exact (getHistory_failure_asymmetry (fun _ => none) (fun _ => some "X")
      [⟨"a", 1⟩, ⟨"b", 2⟩]).2.2 0 ⟨"b", 2⟩ "X" (by decide) (by decide) (by decide)
      (by decide)

/-! ## Address discovery — the `accountExtPubKey` watcher
(`wallet.js` lines 171–266, `ElectrumWS.js` part lines 352–443)

Per chain (external and internal run the same loop with a different
derivation branch), discovery keeps a list of address infos and a counter
`inactiveAddressGapWidth`.  Phase 1 re-scans the existing entries: an entry
already `active` is skipped (`continue`), otherwise its activity is
refreshed and, if it is still inactive, the counter is incremented; the loop
breaks as soon as the counter reaches `INACTIVE_ADDRESS_GAP`.  Phase 2
(`while (inactiveAddressGapWidth < INACTIVE_ADDRESS_GAP)`) derives the next
address at `index = list.length`, refreshes its activity, appends it, and
increments the counter if it is inactive.  Activity
(`updateAddressInfoActivity`, a history fetch) is an oracle from the
derivation index to a boolean; the derived script/address is determined by
the index and does not affect control flow, so entries carry just the index
and the activity flag.  The while loop is given fuel; exhausting the fuel
yields `none` (the source loop would still be running). -/

/-- A per-chain address entry: derivation index and activity flag. -/
structure AddressInfo where
  index : Nat
  active : Bool
deriving DecidableEq

/-- Phase 1: re-scan the existing entries (`scanned` is the processed
prefix).  Skips active entries without touching the counter, refreshes
inactive ones, and breaks — leaving the remaining entries untouched — once
the counter reaches the gap limit. -/
def rescanAddresses (isActive : Nat → Bool) (gapLimit : Nat) :
    List AddressInfo → List AddressInfo → Nat → List AddressInfo × Nat
  | [], scanned, gap => (scanned, gap)
  | a :: rest, scanned, gap =>
    if a.active then rescanAddresses isActive gapLimit rest (scanned ++ [a]) gap
    else
      let a' : AddressInfo := ⟨a.index, isActive a.index⟩
      let gap' := if a'.active then gap else gap + 1
      if gapLimit ≤ gap' then (scanned ++ [a'] ++ rest, gap')
      else rescanAddresses isActive gapLimit rest (scanned ++ [a']) gap'

/-- Phase 2: the `while (gap < gapLimit)` loop — derive at
`index = addrs.length`, refresh activity, push, bump the counter on an
inactive result.  Structural fuel; `none` means the fuel ran out before the
loop condition failed. -/
def scanNewAddresses (isActive : Nat → Bool) (gapLimit : Nat) :
    Nat → List AddressInfo → Nat → Option (List AddressInfo)
  | 0, _, _ => none
  | fuel + 1, addrs, gap =>
    if gap < gapLimit then
      let index := addrs.length
      let addressInfo : AddressInfo := ⟨index, isActive index⟩
      let gap' := if addressInfo.active then gap else gap + 1
      scanNewAddresses isActive gapLimit fuel (addrs ++ [addressInfo]) gap'
    else some addrs

/-- One chain of the watcher: re-scan the existing entries, then derive new
ones until the counter reaches the gap limit. -/
def discoverChain (isActive : Nat → Bool) (gapLimit : Nat) (fuel : Nat)
    (existing : List AddressInfo) : Option (List AddressInfo) :=
  let rescanned := rescanAddresses isActive gapLimit existing [] 0
  scanNewAddresses isActive gapLimit fuel rescanned.1 rescanned.2

/-- The number of inactive entries of a list. -/
def countInactive (l : List AddressInfo) : Nat :=
  (l.filter (fun a => !a.active)).length

/-- The length of the trailing run of consecutive inactive entries. -/
def trailingInactiveRun (l : List AddressInfo) : Nat :=
  (l.reverse.takeWhile (fun a => !a.active)).length

/-- C3 counterexample: with activity only at index 1 (indices 0 and 2
inactive) and `gapLimit = 2`, discovery from an empty list halts after
deriving index 2 — the gap counter counts two inactive addresses in total —
although the trailing run of consecutive inactive addresses has length 1,
not `gapLimit`: the claim's halting condition (a contiguous trailing run of
`gapLimit` inactive addresses) does not describe the code for limits above
one. -/
theorem discoverChain_counterexample :
    discoverChain (fun i => decide (i = 1)) 2 10 []
        = some [⟨0, false⟩, ⟨1, true⟩, ⟨2, false⟩]
    ∧ trailingInactiveRun [⟨0, false⟩, ⟨1, true⟩, ⟨2, false⟩] = 1 := by
  decide

theorem countInactive_append (l1 l2 : List AddressInfo) :
    countInactive (l1 ++ l2) = countInactive l1 + countInactive l2 := by
  simp only [countInactive, List.filter_append, List.length_append]

theorem scanNewAddresses_invariants (isActive : Nat → Bool) (gapLimit : Nat) :
    ∀ (fuel : Nat) (acc l : List AddressInfo),
    scanNewAddresses isActive gapLimit fuel acc (countInactive acc) = some l →
    acc.map AddressInfo.index = List.range acc.length →
    countInactive acc ≤ gapLimit →
    l.map AddressInfo.index = List.range l.length
    ∧ countInactive l = gapLimit
    ∧ (countInactive acc < gapLimit →
        ∃ init last, l = init ++ [last] ∧ last.active = false)
    ∧ (countInactive acc = gapLimit → l = acc) := by
  intro fuel
  induction fuel with
  | zero => intro acc l h; exact absurd h (by simp [scanNewAddresses])
  | succ fuel ih =>
    intro acc l h hidx hle
    by_cases hlt : countInactive acc < gapLimit
    · rw [scanNewAddresses, if_pos hlt] at h
      dsimp only at h
      rcases hact : isActive acc.length with _ | _
      · -- the derived address is inactive: the counter increments
        rw [hact] at h
        simp only [Bool.false_eq_true, if_false] at h
        have hca : countInactive (acc ++ [⟨acc.length, false⟩]) = countInactive acc + 1 := by
          rw [countInactive_append]
          rfl
        rw [← hca] at h
        have hidx' : (acc ++ [(⟨acc.length, false⟩ : AddressInfo)]).map AddressInfo.index
            = List.range (acc ++ [(⟨acc.length, false⟩ : AddressInfo)]).length := by
          simp [List.range_succ, hidx]
        have hle' : countInactive (acc ++ [⟨acc.length, false⟩]) ≤ gapLimit := by
          rw [hca]; omega
        obtain ⟨h1, h2, h3, h4⟩ := ih _ l h hidx' hle'
        refine ⟨h1, h2, fun _ => ?_, fun heq => by omega⟩
        by_cases hlt' : countInactive (acc ++ [⟨acc.length, false⟩]) < gapLimit
        · exact h3 hlt'
        · have heq2 : countInactive (acc ++ [(⟨acc.length, false⟩ : AddressInfo)])
              = gapLimit := by omega
          exact ⟨acc, ⟨acc.length, false⟩, h4 heq2, rfl⟩
      · -- the derived address is active: the counter is unchanged
        rw [hact] at h
        rw [if_pos rfl] at h
        have hca : countInactive (acc ++ [⟨acc.length, true⟩]) = countInactive acc := by
          rw [countInactive_append]
          rfl
        rw [← hca] at h
        have hidx' : (acc ++ [(⟨acc.length, true⟩ : AddressInfo)]).map AddressInfo.index
            = List.range (acc ++ [(⟨acc.length, true⟩ : AddressInfo)]).length := by
          simp [List.range_succ, hidx]
        have hle' : countInactive (acc ++ [⟨acc.length, true⟩]) ≤ gapLimit := by
          rw [hca]; omega
        obtain ⟨h1, h2, h3, h4⟩ := ih _ l h hidx' hle'
        refine ⟨h1, h2, fun _ => h3 (by rw [hca]; exact hlt), fun heq => by omega⟩
    · have heq : countInactive acc = gapLimit := by omega
      rw [scanNewAddresses, if_neg hlt] at h
      cases h
      exact ⟨hidx, heq, fun hc => absurd hc hlt, fun _ => rfl⟩

/-- C3 (amended): starting a fresh scan (empty list), discovery derives new
addresses at `index = current list length` in strictly increasing order (the
final indices are `0, 1, …, n−1`), and halts exactly when the total number
of inactive addresses observed since the scan began reaches `gapLimit` — the
counter is never reset by an active address, so the halting condition is the
total count, not a contiguous trailing run; the final derivation is the
inactive address that brings the count to `gapLimit`.  With the source's
`gapLimit = 1` the two readings coincide; in particular, with indices 0, 1,
2 active and index 3 inactive, discovery halts after deriving index 3 and no
index-4 entry is created. -/
theorem discoverChain_halting (isActive : Nat → Bool) (gapLimit fuel : Nat)
    (l : List AddressInfo) :
    (discoverChain isActive gapLimit fuel [] = some l →
      l.map AddressInfo.index = List.range l.length
      ∧ countInactive l = gapLimit
      ∧ (0 < gapLimit → ∃ init last, l = init ++ [last] ∧ last.active = false))
    ∧ discoverChain (fun i => decide (i < 3)) 1 10 []
        = some [⟨0, true⟩, ⟨1, true⟩, ⟨2, true⟩, ⟨3, false⟩] := by
  constructor
  · intro h
    have hrun : scanNewAddresses isActive gapLimit fuel [] (countInactive []) = some l := h
    obtain ⟨h1, h2, h3, h4⟩ := scanNewAddresses_invariants isActive gapLimit fuel [] l hrun
      (by simp) (by simp [countInactive])
    exact ⟨h1, h2, fun hpos => h3 (by simpa [countInactive] using hpos)⟩
  · decide

/-- Witness for the amended C3, reading the invariants off the concrete
`gapLimit = 1` run in which indices 0–2 are active and 3 is inactive. -/
theorem discoverChain_halting_witness :
    List.map AddressInfo.index [⟨0, true⟩, ⟨1, true⟩, ⟨2, true⟩, ⟨3, false⟩]
        = List.range 4
    ∧ countInactive [⟨0, true⟩, ⟨1, true⟩, ⟨2, true⟩, ⟨3, false⟩] = 1 := by
  have h := discoverChain_halting (fun i => decide (i < 3)) 1 10
    [⟨0, true⟩, ⟨1, true⟩, ⟨2, true⟩, ⟨3, false⟩]
  obtain ⟨h1, h2, _⟩ := h.1 h.2
  exact ⟨h1, h2⟩

/-! ## UTXO reconciliation — the `utxos` computed property
(`wallet.js` lines 103–157, `ElectrumWS.js` part lines 284–338)

The computed property flattens all inputs of all ledger records into strings
`` `${input.txid}:${input.output_index}` ``, flattens all outputs (tagged
with their transaction's id), and keeps exactly those outputs whose address
is one of the wallet's own and whose `` `${txid}:${index}` `` key does not
occur among the input keys.  The template literal renders the output index
in decimal; the decimal digits are modelled by an explicit base-10
rendering, for which the key encoding is provably injective (the digit part
never contains the `':'` separator). -/

/-- The decimal digit character for `d < 10`. -/
def digitChar (d : Nat) : Char := Char.ofNat (48 + d)

/-- The decimal digit string of a natural number, most significant digit
first — the rendering a JavaScript template literal applies to a
non-negative integer index. -/
def natDecChars (n : Nat) : List Char :=
  if _h : n < 10 then [digitChar n]
  else natDecChars (n / 10) ++ [digitChar (n % 10)]
decreasing_by exact Nat.div_lt_self (by omega) (by omega)

theorem digitChar_ne_colon (d : Nat) (hd : d < 10) : digitChar d ≠ ':' := by
  have h10 : ∀ d' : Fin 10, digitChar d'.val ≠ ':' := by decide
  exact h10 ⟨d, hd⟩

theorem colon_not_mem_natDecChars (n : Nat) : ':' ∉ natDecChars n := by
  induction n using Nat.strong_induction_on with
  | _ n ih =>
    rw [natDecChars]
    by_cases h : n < 10
    · rw [dif_pos h]
      simp only [List.mem_singleton]
      exact fun hc => digitChar_ne_colon n h hc.symm
    · rw [dif_neg h]
      simp only [List.mem_append, List.mem_singleton]
      rintro (hc | hc)
      · exact ih (n / 10) (Nat.div_lt_self (by omega) (by omega)) hc
      · exact digitChar_ne_colon (n % 10) (Nat.mod_lt _ (by omega)) hc.symm

/-- Reading a digit string back as a number. -/
def decValue (l : List Char) : Nat :=
  l.foldl (fun acc c => 10 * acc + (c.toNat - 48)) 0

theorem digitChar_toNat (d : Nat) (hd : d < 10) : (digitChar d).toNat = 48 + d := by
  have h10 : ∀ d' : Fin 10, (digitChar d'.val).toNat = 48 + d'.val := by decide
  exact h10 ⟨d, hd⟩

theorem decValue_natDecChars (n : Nat) : decValue (natDecChars n) = n := by
  induction n using Nat.strong_induction_on with
  | _ n ih =>
    rw [natDecChars]
    by_cases h : n < 10
    · rw [dif_pos h]
      show 10 * 0 + ((digitChar n).toNat - 48) = n
      rw [digitChar_toNat n h]
      omega
    · rw [dif_neg h]
      show (natDecChars (n / 10) ++ [digitChar (n % 10)]).foldl
        (fun acc c => 10 * acc + (c.toNat - 48)) 0 = n
      rw [List.foldl_append]
      show 10 * decValue (natDecChars (n / 10)) + ((digitChar (n % 10)).toNat - 48) = n
      rw [ih (n / 10) (Nat.div_lt_self (by omega) (by omega)),
        digitChar_toNat (n % 10) (Nat.mod_lt _ (by omega))]
      omega

theorem natDecChars_injective (a b : Nat) (h : natDecChars a = natDecChars b) : a = b := by
  have := congrArg decValue h
  rwa [decValue_natDecChars, decValue_natDecChars] at this

/-- Splitting at a separator absent from both left parts is unambiguous. -/
theorem append_cons_inj {α : Type} (c : α) :
    ∀ (l1 l2 r1 r2 : List α), c ∉ l1 → c ∉ l2 → l1 ++ c :: r1 = l2 ++ c :: r2 →
      l1 = l2 ∧ r1 = r2 := by
  intro l1
  induction l1 with
  | nil =>
    intro l2 r1 r2 _ hc2 h
    cases l2 with
    | nil =>
      simp only [List.nil_append, List.cons.injEq] at h
      exact ⟨rfl, h.2⟩
    | cons x l2 =>
      simp only [List.nil_append, List.cons_append, List.cons.injEq] at h
      exact absurd (List.mem_cons_self x l2) (h.1 ▸ hc2)
  | cons x l1 ih =>
    intro l2 r1 r2 hc1 hc2 h
    cases l2 with
    | nil =>
      simp only [List.cons_append, List.nil_append, List.cons.injEq] at h
      exact absurd (List.mem_cons_self x l1) (h.1.symm ▸ hc1)
    | cons y l2 =>
      simp only [List.cons_append, List.cons.injEq] at h
      obtain ⟨hxy, hrest⟩ := h
      have hc1' : c ∉ l1 := fun hc => hc1 (List.mem_cons_of_mem x hc)
      have hc2' : c ∉ l2 := fun hc => hc2 (List.mem_cons_of_mem y hc)
      obtain ⟨he, hr⟩ := ih l2 r1 r2 hc1' hc2' hrest
      exact ⟨by rw [hxy, he], hr⟩

/-- The same for a separator absent from both right parts: split at the
last occurrence. -/
theorem append_cons_inj_of_right {α : Type} (c : α) (l1 l2 r1 r2 : List α)
    (hc1 : c ∉ r1) (hc2 : c ∉ r2) (h : l1 ++ c :: r1 = l2 ++ c :: r2) :
    l1 = l2 ∧ r1 = r2 := by
  have hrev := congrArg List.reverse h
  simp only [List.reverse_append, List.reverse_cons] at hrev
  rw [List.append_assoc, List.append_assoc] at hrev
  simp only [List.singleton_append] at hrev
  have hm1 : c ∉ r1.reverse := by simpa using hc1
  have hm2 : c ∉ r2.reverse := by simpa using hc2
  obtain ⟨hr, hl⟩ := append_cons_inj c r1.reverse r2.reverse l1.reverse l2.reverse hm1 hm2 hrev
  constructor
  · have := congrArg List.reverse hl
    simpa using this
  · have := congrArg List.reverse hr
    simpa using this

/-- `` `${txid}:${index}` ``: the key under which a previous output is
referenced, both for the flattened input list and for the membership test on
outputs. -/
def mkInputKey (txid : String) (index : Nat) : String :=
  txid ++ ":" ++ String.mk (natDecChars index)

theorem mkInputKey_injective (t1 t2 : String) (i1 i2 : Nat)
    (h : mkInputKey t1 i1 = mkInputKey t2 i2) : t1 = t2 ∧ i1 = i2 := by
  have hdata : t1.data ++ ':' :: natDecChars i1 = t2.data ++ ':' :: natDecChars i2 := by
    have := congrArg String.data h
    simpa [mkInputKey, String.data_append] using this
  obtain ⟨hl, hr⟩ := append_cons_inj_of_right ':' t1.data t2.data _ _
    (colon_not_mem_natDecChars i1) (colon_not_mem_natDecChars i2) hdata
  exact ⟨String.ext hl, natDecChars_injective i1 i2 hr⟩

/-- An input of a ledger transaction record, as consumed by `utxos`: the
referenced previous transaction id and output index (the record also carries
address, value and script fields, which `utxos` never reads). -/
structure TxInput where
  txid : String
  output_index : Nat
deriving DecidableEq

/-- An output of a ledger transaction record: the fields `utxos` copies. -/
structure TxOutput where
  address : String
  value : Nat
  index : Nat
  script : String
deriving DecidableEq

/-- A ledger transaction record, as far as `utxos` inspects it. -/
structure LedgerTx where
  txid : String
  inputs : List TxInput
  outputs : List TxOutput
deriving DecidableEq

/-- The nested `witnessUtxo` object of a derived UTXO. -/
structure WitnessUtxo where
  script : String
  value : Nat
deriving DecidableEq

/-- One entry of the derived UTXO list, in the shape BitcoinJS expects plus
the extra `address` / `isInternal` properties the transaction builder
needs. -/
structure Utxo where
  hash : String
  index : Nat
  witnessUtxo : WitnessUtxo
  address : String
  isInternal : Bool
deriving DecidableEq

/-- The `utxos` computed property: flatten the inputs into reference keys,
flatten the outputs tagged with their transaction id, then keep each output
that belongs to a wallet address (`continue` otherwise) and is not referenced
by any input (`continue` otherwise), reshaped for BitcoinJS.  The two
`reduce`-with-`concat` passes are folds; the push loop with two `continue`s
is a filter followed by a map. -/
def utxos (txsArray : List LedgerTx) (extAddresses intAddresses : List String) :
    List Utxo :=
  if txsArray.isEmpty then [] else
  let inputs := txsArray.foldl
    (fun list tx => list ++ tx.inputs.map (fun i => mkInputKey i.txid i.output_index)) []
  let outputs := txsArray.foldl
    (fun list tx => list ++ tx.outputs.map (fun o => (tx.txid, o))) []
  (outputs.filter (fun p =>
      (extAddresses.contains p.2.address || intAddresses.contains p.2.address)
      && !(inputs.contains (mkInputKey p.1 p.2.index)))).map
    (fun p =>
      { hash := p.1
        index := p.2.index
        witnessUtxo := { script := p.2.script, value := p.2.value }
        address := p.2.address
        isInternal := intAddresses.contains p.2.address })

theorem mem_foldl_concat {α β : Type} (f : β → List α) (l : List β) (acc : List α)
    (x : α) :
    x ∈ l.foldl (fun a t => a ++ f t) acc ↔ x ∈ acc ∨ ∃ t ∈ l, x ∈ f t := by
  induction l generalizing acc with
  | nil => simp
  | cons t rest ih =>
    simp only [List.foldl_cons, ih, List.mem_append, List.mem_cons]
    constructor
    · rintro ((hx | hx) | ⟨t', ht', hx⟩)
      · exact Or.inl hx
      · exact Or.inr ⟨t, Or.inl rfl, hx⟩
      · exact Or.inr ⟨t', Or.inr ht', hx⟩
    · rintro (hx | ⟨t', (rfl | ht'), hx⟩)
      · exact Or.inl (Or.inl hx)
      · exact Or.inl (Or.inr hx)
      · exact Or.inr ⟨t', ht', hx⟩

/-- C2: the derived UTXO list contains exactly the reshaped outputs whose
address is in one of the owned address lists (external or internal) and
whose `(txid, output index)` pair is referenced by no input of any ledger
record; in particular an output spent by any known input never appears. -/
theorem utxos_characterization (txsArray : List LedgerTx)
    (extAddresses intAddresses : List String) (u : Utxo) :
    u ∈ utxos txsArray extAddresses intAddresses ↔
      ((∃ tx ∈ txsArray, tx.txid = u.hash ∧ ∃ o ∈ tx.outputs,
          o.index = u.index ∧ o.address = u.address
          ∧ o.script = u.witnessUtxo.script ∧ o.value = u.witnessUtxo.value)
        ∧ (u.address ∈ extAddresses ∨ u.address ∈ intAddresses)
        ∧ u.isInternal = intAddresses.contains u.address
        ∧ ¬∃ tx ∈ txsArray, ∃ i ∈ tx.inputs,
            i.txid = u.hash ∧ i.output_index = u.index) := by
  obtain ⟨uhash, uindex, ⟨uscript, uvalue⟩, uaddress, uinternal⟩ := u
  by_cases hempty : txsArray.isEmpty = true
  · rw [List.isEmpty_iff] at hempty
    subst hempty
    simp [utxos]
  · simp only [utxos, hempty, Bool.false_eq_true, if_false]
    rw [List.mem_map]
    constructor
    · rintro ⟨p, hp, hgp⟩
      rw [List.mem_filter] at hp
      obtain ⟨hpmem, hpcond⟩ := hp
      simp only [Bool.and_eq_true, Bool.or_eq_true, Bool.not_eq_true'] at hpcond
      obtain ⟨howned, hunspent⟩ := hpcond
      rw [mem_foldl_concat] at hpmem
      rcases hpmem with h | ⟨tx, htx, hpo⟩
      · exact absurd h (List.not_mem_nil p)
      rw [List.mem_map] at hpo
      obtain ⟨o, ho, hpeq⟩ := hpo
      subst hpeq
      obtain ⟨hh, hi, hs, hv, ha, hint⟩ : tx.txid = uhash ∧ o.index = uindex
          ∧ o.script = uscript ∧ o.value = uvalue ∧ o.address = uaddress
          ∧ intAddresses.contains o.address = uinternal := by
        injection hgp with h1 h2 h3 h4 h5
        injection h3 with h3a h3b
        exact ⟨h1, h2, h3a, h3b, h4, h5⟩
      refine ⟨⟨tx, htx, hh, o, ho, hi, ha, hs, hv⟩, ?_, ?_, ?_⟩
      · rw [← ha]
        rcases howned with howned | howned
        · exact Or.inl (by simpa using howned)
        · exact Or.inr (by simpa using howned)
      · rw [← ha, ← hint]
      · rintro ⟨tx', htx', i, hi', hit, hii⟩
        have hkeymem : mkInputKey i.txid i.output_index ∈ txsArray.foldl
            (fun list tx => list ++ tx.inputs.map
              (fun i => mkInputKey i.txid i.output_index)) [] := by
          rw [mem_foldl_concat]
          exact Or.inr ⟨tx', htx', List.mem_map_of_mem _ hi'⟩
        rw [hit, hii, ← hh, ← hi] at hkeymem
        have : (txsArray.foldl
            (fun list tx => list ++ tx.inputs.map
              (fun i => mkInputKey i.txid i.output_index)) []).contains
            (mkInputKey tx.txid o.index) = true := by
          simpa using hkeymem
        rw [hunspent] at this
        exact absurd this (by simp)
    · rintro ⟨⟨tx, htx, hh, o, ho, hi, ha, hs, hv⟩, howned, hint, hunspent⟩
      refine ⟨(tx.txid, o), ?_, ?_⟩
      · rw [List.mem_filter]
        constructor
        · rw [mem_foldl_concat]
          exact Or.inr ⟨tx, htx, List.mem_map_of_mem _ ho⟩
        · simp only [Bool.and_eq_true, Bool.or_eq_true, Bool.not_eq_true']
          constructor
          · rw [ha]
            rcases howned with howned | howned
            · exact Or.inl (by simpa using howned)
            · exact Or.inr (by simpa using howned)
          · by_cases hc : (txsArray.foldl
                (fun list tx => list ++ tx.inputs.map
                  (fun i => mkInputKey i.txid i.output_index)) []).contains
                (mkInputKey tx.txid o.index) = true
            · exfalso
              have hmem : mkInputKey tx.txid o.index ∈ txsArray.foldl
                  (fun list tx => list ++ tx.inputs.map
                    (fun i => mkInputKey i.txid i.output_index)) [] := by
                simpa using hc
              rw [mem_foldl_concat] at hmem
              rcases hmem with hmem | ⟨tx', htx', hkey⟩
              · exact absurd hmem (List.not_mem_nil _)
              rw [List.mem_map] at hkey
              obtain ⟨i, hi', hkeyeq⟩ := hkey
              obtain ⟨hkt, hki⟩ := mkInputKey_injective i.txid tx.txid
                i.output_index o.index hkeyeq
              exact hunspent ⟨tx', htx', i, hi', by rw [hkt, hh], by rw [hki, hi]⟩
            · simpa using hc
      · show (⟨tx.txid, o.index, ⟨o.script, o.value⟩, o.address,
            intAddresses.contains o.address⟩ : Utxo)
          = ⟨uhash, uindex, ⟨uscript, uvalue⟩, uaddress, uinternal⟩
        rw [hh, hi, hs, hv, ha, ← hint]

/-! ## Transaction ledger updates — `updateTransaction`

A transaction record is modelled as a JavaScript object: an ordered list of
(field name, value) pairs, with assignment overwriting in place or appending
a new field. -/

/-- A JSON-ish field value; objects recurse (the stored ledger records and
the partial update records are objects). -/
inductive FieldVal
  | fNull
  | fNum (n : Int)
  | fStr (s : String)
  | fObj (fields : List (String × FieldVal))

/-- A JavaScript object as an ordered field list. -/
def TxRecord : Type := List (String × FieldVal)

/-- `obj[key] = value`: overwrite the field in place if present, else append
it. -/
def setField : TxRecord → String → FieldVal → TxRecord
  | [], key, v => [(key, v)]
  | (k, w) :: rest, key, v =>
    if k = key then (key, v) :: rest else (k, w) :: setField rest key v

/-- `obj[key]`: the field's value, if present. -/
def getField : TxRecord → String → Option FieldVal
  | [], _ => none
  | (k, w) :: rest, key => if k = key then some w else getField rest key

/-- `updateTransaction` of the Electrum demo (`ElectrumWS.js` part, lines
533–540): look the stored record up by the partial record's `txid` and copy
every field of the partial record except `txid` onto it:
`for (const key in partialTx) { if (key === 'txid') continue;
tx[key] = partialTx[key]; }`. -/
def updateTransactionFields (tx : TxRecord) (partialTx : TxRecord) : TxRecord :=
  partialTx.foldl (fun acc kv => if kv.1 = "txid" then acc else setField acc kv.1 kv.2) tx

/-- `updateTransaction` of `wallet.js` (lines 305–312): builds
`{ ...this.txs[partialTx.txid], partialTx }` — the spread copies the stored
record, and `partialTx` adds a single property literally named `partialTx`
holding the partial record as a value; the partial record's own fields are
never copied. -/
def updateTransactionWallet (storedTx : TxRecord) (partialTx : TxRecord) : TxRecord :=
  setField storedTx "partialTx" (.fObj partialTx)

/-- C9 (code bug in `wallet.js`): applying the partial record
`{txid: "a", block_height: 5, block_time: 777}` to the stored record
`{txid: "a", block_height: null, fee: 10}`, the field-wise merge of the
Electrum demo updates `block_height` and `block_time` while leaving `txid`
and `fee` untouched — exactly what the claim states — but `wallet.js`'s
`updateTransaction` (`{...stored, partialTx}`, a slip for
`{...stored, ...partialTx}`) leaves `block_height` at `null` and instead
attaches the whole partial record under a property named `partialTx`. -/
theorem updateTransaction_fieldwise_merge :
    getField (updateTransactionFields
        [("txid", .fStr "a"), ("block_height", .fNull), ("fee", .fNum 10)]
        [("txid", .fStr "a"), ("block_height", .fNum 5), ("block_time", .fNum 777)])
        "block_height" = some (.fNum 5)
    ∧ getField (updateTransactionFields
        [("txid", .fStr "a"), ("block_height", .fNull), ("fee", .fNum 10)]
        [("txid", .fStr "a"), ("block_height", .fNum 5), ("block_time", .fNum 777)])
        "block_time" = some (.fNum 777)
    ∧ getField (updateTransactionFields
        [("txid", .fStr "a"), ("block_height", .fNull), ("fee", .fNum 10)]
        [("txid", .fStr "a"), ("block_height", .fNum 5), ("block_time", .fNum 777)])
        "fee" = some (.fNum 10)
    ∧ getField (updateTransactionFields
        [("txid", .fStr "a"), ("block_height", .fNull), ("fee", .fNum 10)]
        [("txid", .fStr "a"), ("block_height", .fNum 5), ("block_time", .fNum 777)])
        "txid" = some (.fStr "a")
    ∧ getField (updateTransactionWallet
        [("txid", .fStr "a"), ("block_height", .fNull), ("fee", .fNum 10)]
        [("txid", .fStr "a"), ("block_height", .fNum 5), ("block_time", .fNum 777)])
        "block_height" = some .fNull
    ∧ getField (updateTransactionWallet
        [("txid", .fStr "a"), ("block_height", .fNull), ("fee", .fNum 10)]
        [("txid", .fStr "a"), ("block_height", .fNum 5), ("block_time", .fNum 777)])
        "partialTx"
        = some (.fObj [("txid", .fStr "a"), ("block_height", .fNum 5),
            ("block_time", .fNum 777)]) :=
  ⟨rfl, rfl, rfl, rfl, rfl, rfl⟩

end Keyguard
